import Mathlib

/-
Verification of the Akumuli functional-test harness (functests/).
Python strings are modelled as lists of characters, Python integers as ℤ/ℕ,
and Python floats that carry exact small integer values as ℚ.
-/

/-- Python strings are modelled as lists of characters. -/
abbrev Str := List Char

/- ---------------------------------------------------------------------
   Claim C1: the filter-query value check (test_filter_query.py, run_query)
   --------------------------------------------------------------------- -/

/-- Embeds `exp_values = range(thresholds[0], thresholds[1])` from
`run_query` (test_filter_query.py line 44): the Python 2 list of integers
`a, a+1, ..., b-1`. -/
def exp_values (a b : ℤ) : List ℤ :=
  (List.range (b - a).toNat).map (fun i : ℕ => a + (i : ℤ))

/-- Embeds the per-row value check of `run_query`
(test_filter_query.py line 61): `if not value in exp_values: raise`.
The row value is a float compared numerically against the integers of
`exp_values`; acceptance means no exception is raised. -/
def filterValueAccept (a b : ℤ) (v : ℚ) : Bool :=
  (exp_values a b).any (fun k => decide (v = (k : ℚ)))

/- ---------------------------------------------------------------------
   Claim C2: error-message check vs empty-response check
   (test_query_language.py, check_error_message / require_empty_response)
   --------------------------------------------------------------------- -/

/-- Boolean test that `pat` occurs at the start of `s`, embedding Python
`s.startswith(pat)`. -/
def beginsWith : Str → Str → Bool
  | [], _ => true
  | _ :: _, [] => false
  | a :: pat, b :: s => a == b && beginsWith pat s

/-- Embeds the reply expected by `check_error_message` for an unknown
metric: the error line `-not found`. -/
def notFoundMsg : Str := "-not found".data

/-- Embeds `check_error_message` (test_query_language.py lines 649-662)
specialised to `errmsg = "-not found"`: the response is accepted when it
has exactly one line and that line starts with the error message. -/
def notFoundAccept (lines : List Str) : Bool :=
  match lines with
  | [l] => beginsWith notFoundMsg l
  | _ => false

/-- Embeds `require_empty_response` (test_query_language.py lines
697-710): the response is accepted when it has exactly zero lines. -/
def emptyAccept (lines : List Str) : Bool :=
  lines.length == 0

/- ---------------------------------------------------------------------
   Theorems for C1 and C2
   --------------------------------------------------------------------- -/

/-- C1, counterexample: with the harness thresholds gt = -20, lt = 20, the
filter-query check accepts a row whose value is exactly the lower bound
-20, so the accepted set is not the strictly-open interval (-20, 20). -/
theorem C1_filter_open_interval_counterexample :
    filterValueAccept (-20) 20 (-20) = true ∧
      ¬(((-20 : ℤ) : ℚ) < ((-20 : ℤ) : ℚ) ∧ ((-20 : ℤ) : ℚ) < ((20 : ℤ) : ℚ)) := by
  constructor
  · decide
  · intro h
    exact absurd h.1 (lt_irrefl _)

/-- C1, amended: for bounds gt = a and lt = b the filter-query check
accepts exactly the integer values of the half-open interval [a, b): a row
value equal to b or any non-integer value is rejected, but a row value
exactly equal to a is accepted. -/
theorem C1_filter_accepts_integer_halfopen (a b : ℤ) (v : ℚ) :
    filterValueAccept a b v = true ↔ ∃ k : ℤ, a ≤ k ∧ k < b ∧ v = (k : ℚ) := by
  unfold filterValueAccept exp_values
  simp only [List.any_eq_true, List.mem_map, List.mem_range, decide_eq_true_eq]
  constructor
  · rintro ⟨x, ⟨i, hi, rfl⟩, hv⟩
    exact ⟨a + (i : ℤ), by omega, by omega, hv⟩
  · rintro ⟨k, hak, hkb, rfl⟩
    exact ⟨k, ⟨(k - a).toNat, by omega, by omega⟩, rfl⟩

/-- C2: the acceptance predicate for a NotFound outcome (exactly one line
beginning with `-not found`) and the acceptance predicate for an
EmptyResult outcome (exactly zero lines) can never both hold of one
response, so the two outcomes are distinguishable by line count and
content. -/
theorem C2_notfound_empty_mutually_exclusive (lines : List Str) :
    (notFoundAccept lines && emptyAccept lines) = false := by
  match lines with
  | [] => rfl
  | [l] => simp [notFoundAccept, emptyAccept]
  | _ :: _ :: _ => rfl

/- ---------------------------------------------------------------------
   Claim C3: group-aggregate per-bucket count check
   (test_query_language.py, test_group_aggregate_all_forward lines 425-488)
   --------------------------------------------------------------------- -/

/-- Embeds `cnt_expected = N/nsteps/nseries; if cnt_expected == 0:
cnt_expected = 1` (test_query_language.py lines 463-467).  Python 2 `/`
on integers is floor division, so the chain is `(N // nsteps) //
nseries`. -/
def cnt_expected (N nsteps nseries : ℕ) : ℕ :=
  if N / nsteps / nseries = 0 then 1 else N / nsteps / nseries

/-- Embeds the per-row count check `if cnt_value != cnt_expected: raise`
(test_query_language.py lines 469-471); `cnt_value` is a float compared
numerically with the integer `cnt_expected`. -/
def groupAggCntAccept (N nsteps nseries : ℕ) (cnt : ℚ) : Bool :=
  decide (cnt = (cnt_expected N nsteps nseries : ℚ))

/- ---------------------------------------------------------------------
   Claim C4: aggregate sum with group-by collapsing all series
   (test_query_language.py, test_aggregate_all_group_by lines 331-369)
   --------------------------------------------------------------------- -/

/-- Embeds the harness's expected total `0.5*(N**2 - N)`
(test_query_language.py lines 347-349) under exact arithmetic. -/
def expected_total (N : ℕ) : ℚ :=
  0.5 * ((N : ℚ) ^ 2 - (N : ℚ))

/-- Embeds the values written by `generate_messages` (akumulid_test_tools.py
lines 84-90): the i-th sample carries value i, for i = 0 .. N-1, written
round-robin across the matched series. -/
def generated_values (N : ℕ) : List ℚ :=
  (List.range N).map (fun i : ℕ => (i : ℚ))

/-- Modelled from the spec: the query executor's `sum` aggregate reduces
each matched series to one row and `group-by` on a tag shared by all
series collapses them into a single result row holding the sum of every
written value; the daemon's aggregation code is not part of the harness
sources. -/
def sum_aggregate_response (N : ℕ) : List ℚ :=
  [(generated_values N).sum]

/-- Embeds the per-row tolerance check `abs(value - expected_values[0]) >
10E-5` raising (test_query_language.py lines 357-360). -/
def aggRowAccept (N : ℕ) (v : ℚ) : Bool :=
  decide (|v - expected_total N| ≤ (10e-5 : ℚ))

/-- Embeds the whole acceptance predicate of `test_aggregate_all_group_by`:
every row passes the tolerance check and `iterations != 1` raises
(test_query_language.py lines 368-369). -/
def aggGroupByAccept (N : ℕ) (rows : List ℚ) : Bool :=
  rows.all (aggRowAccept N) && (rows.length == 1)

/- ---------------------------------------------------------------------
   Claim C5: the late-write reply check
   (test_query_language.py, test_late_write lines 637-646)
   --------------------------------------------------------------------- -/

/-- Whitespace characters stripped by Python `str.strip()`. -/
def pyWhitespace (c : Char) : Bool :=
  c == ' ' || c == '\t' || c == '\n' || c == '\r' || c == '\x0b' || c == '\x0c'

/-- Embeds Python `s.strip()`: drop whitespace from both ends. -/
def pyStrip (s : Str) : Str :=
  ((s.dropWhile pyWhitespace).reverse.dropWhile pyWhitespace).reverse

/-- Dropping only a trailing run of carriage-return / line-feed
characters, the reading of "stripped of trailing CRLF" used by the
claim. -/
def rstripCRLF (s : Str) : Str :=
  (s.reverse.dropWhile (fun c => c == '\r' || c == '\n')).reverse

/-- Embeds the exact reply `-DB late write` expected by `test_late_write`. -/
def lateWriteTarget : Str := "-DB late write".data

/-- Embeds the check of `test_late_write` (test_query_language.py lines
643-646): `resp = chan.recv().strip(); if resp != '-DB late write':
raise`. -/
def lateWriteAccept (resp : Str) : Bool :=
  decide (pyStrip resp = lateWriteTarget)

/-- State of the spec-modelled ingestion engine: the late-write window,
the most recently committed timestamp, and the stored samples. -/
structure DbModel where
  window : ℤ
  lastCommitted : ℤ
  samples : List (ℤ × ℚ)

/-- Modelled from the spec: a commit with a timestamp older than the
configured late-write window relative to the most recently committed
timestamp is rejected with the line `-DB late write` and not stored;
otherwise the sample is stored (the daemon's ingestion code is not part
of the harness sources).  The TCP reply line is CRLF-terminated. -/
def ingest (st : DbModel) (ts : ℤ) (v : ℚ) : DbModel × Str :=
  if ts < st.lastCommitted - st.window then
    (st, lateWriteTarget ++ ['\r', '\n'])
  else
    ({ st with samples := st.samples ++ [(ts, v)],
               lastCommitted := max st.lastCommitted ts }, [])

/- ---------------------------------------------------------------------
   Theorems for C3, C4, C5
   --------------------------------------------------------------------- -/

/-- C3: for positive N, nsteps and nseries, the per-bucket count required
by the group-aggregate check equals floor(N / nsteps / nseries) whenever
that floor is at least 1, equals 1 when the floor is 0, and a returned
bucket row is accepted exactly when its count equals this value. -/
theorem C3_group_aggregate_count (N nsteps nseries : ℕ)
    (hN : 0 < N) (hs : 0 < nsteps) (hr : 0 < nseries) :
    (1 ≤ N / nsteps / nseries →
      cnt_expected N nsteps nseries = N / nsteps / nseries) ∧
    (N / nsteps / nseries = 0 → cnt_expected N nsteps nseries = 1) ∧
    ⌊(N : ℚ) / (nsteps : ℚ) / (nseries : ℚ)⌋₊ = N / nsteps / nseries ∧
    (∀ cnt : ℚ, groupAggCntAccept N nsteps nseries cnt = true ↔
      cnt = (cnt_expected N nsteps nseries : ℚ)) := by
  refine ⟨?_, ?_, ?_, ?_⟩
  · intro h
    unfold cnt_expected
    rw [if_neg (show ¬(N / nsteps / nseries = 0) by omega)]
  · intro h
    unfold cnt_expected
    rw [if_pos h]
  · rw [Nat.floor_div_nat, Nat.floor_div_nat, Nat.floor_natCast]
  · intro cnt
    unfold groupAggCntAccept
    exact decide_eq_true_iff

/-- C3 witness: instantiation at N = 100, nsteps = 10, nseries = 10. -/
theorem C3_group_aggregate_count_witness :
    0 < 100 ∧ 0 < 10 ∧ 0 < 10 ∧
    ((1 ≤ 100 / 10 / 10 → cnt_expected 100 10 10 = 100 / 10 / 10) ∧
     (100 / 10 / 10 = 0 → cnt_expected 100 10 10 = 1) ∧
     ⌊(100 : ℚ) / (10 : ℚ) / (10 : ℚ)⌋₊ = 100 / 10 / 10 ∧
     (∀ cnt : ℚ, groupAggCntAccept 100 10 10 cnt = true ↔
       cnt = (cnt_expected 100 10 10 : ℚ))) :=
  ⟨by decide, by decide, by decide,
    C3_group_aggregate_count 100 10 10 (by decide) (by decide) (by decide)⟩

/-- Gauss sum of the generated values. -/
theorem generated_values_sum (N : ℕ) :
    (generated_values N).sum = (N : ℚ) * ((N : ℚ) - 1) / 2 := by
  induction N with
  | zero => simp [generated_values]
  | succ n ih =>
    have hsplit : generated_values (n + 1) = generated_values n ++ [(n : ℚ)] := by
      simp [generated_values, List.range_succ]
    rw [hsplit, List.sum_append, List.sum_cons, List.sum_nil, ih]
    push_cast
    ring

/-- C4: for positive N, with samples valued 0..N-1 written round-robin,
the spec-modelled `sum` aggregate grouped into one row equals N*(N-1)/2
exactly, this single row is the whole response and passes the harness
check, and the harness's expected total 0.5*(N^2 - N) equals N*(N-1)/2
under exact arithmetic. -/
theorem C4_aggregate_sum_group_by (N : ℕ) (hN : 1 ≤ N) :
    (generated_values N).sum = (N : ℚ) * ((N : ℚ) - 1) / 2 ∧
    expected_total N = (N : ℚ) * ((N : ℚ) - 1) / 2 ∧
    sum_aggregate_response N = [(N : ℚ) * ((N : ℚ) - 1) / 2] ∧
    aggGroupByAccept N (sum_aggregate_response N) = true := by
  have hsum := generated_values_sum N
  have hexp : expected_total N = (N : ℚ) * ((N : ℚ) - 1) / 2 := by
    unfold expected_total
    norm_num
    ring
  refine ⟨hsum, hexp, ?_, ?_⟩
  · unfold sum_aggregate_response
    rw [hsum]
  · unfold aggGroupByAccept sum_aggregate_response
    simp only [List.all_cons, List.all_nil, Bool.and_true, List.length_cons,
      List.length_nil]
    have : aggRowAccept N (generated_values N).sum = true := by
      unfold aggRowAccept
      rw [hsum, ← hexp]
      simp
      norm_num
    rw [this]
    rfl

/-- C4 witness: instantiation at N = 5 (sum 0+1+2+3+4 = 10). -/
theorem C4_aggregate_sum_group_by_witness :
    1 ≤ 5 ∧
    ((generated_values 5).sum = (5 : ℚ) * ((5 : ℚ) - 1) / 2 ∧
     expected_total 5 = (5 : ℚ) * ((5 : ℚ) - 1) / 2 ∧
     sum_aggregate_response 5 = [(5 : ℚ) * ((5 : ℚ) - 1) / 2] ∧
     aggGroupByAccept 5 (sum_aggregate_response 5) = true) :=
  ⟨by decide, C4_aggregate_sum_group_by 5 (by decide)⟩

/-- C5, counterexample: the harness check strips whitespace from both
ends (Python `str.strip`), so the reply consisting of a leading blank
followed by `-DB late write` is accepted even though stripping only
trailing CRLF characters does not yield `-DB late write`; the claim's
acceptance condition differs from the code's. -/
theorem C5_late_write_strip_counterexample :
    lateWriteAccept (' ' :: lateWriteTarget) = true ∧
    rstripCRLF (' ' :: lateWriteTarget) ≠ lateWriteTarget := by
  constructor
  · decide
  · decide

/-- C5, amended: a sample timestamped before lastCommitted - window gets
the reply `-DB late write` followed by CRLF and is not stored (state
unchanged), that reply is accepted by the harness check, and the check
accepts exactly the replies equal to `-DB late write` after stripping
leading and trailing whitespace. -/
theorem C5_late_write_amended (st : DbModel) (ts : ℤ) (v : ℚ)
    (h : ts < st.lastCommitted - st.window) :
    (ingest st ts v).2 = lateWriteTarget ++ ['\r', '\n'] ∧
    (ingest st ts v).1 = st ∧
    lateWriteAccept (ingest st ts v).2 = true ∧
    (∀ resp : Str, lateWriteAccept resp = true ↔ pyStrip resp = lateWriteTarget) := by
  unfold ingest
  rw [if_pos h]
  refine ⟨rfl, rfl, ?_, ?_⟩
  · show lateWriteAccept (lateWriteTarget ++ ['\r', '\n']) = true
    decide
  · intro resp
    unfold lateWriteAccept
    exact decide_eq_true_iff

/-- C5 witness: a store whose window is 10 and whose last committed
timestamp is 100 rejects a sample at timestamp 0. -/
theorem C5_late_write_amended_witness :
    (0 : ℤ) < (DbModel.mk 10 100 []).lastCommitted - (DbModel.mk 10 100 []).window ∧
    ((ingest (DbModel.mk 10 100 []) 0 1).2 = lateWriteTarget ++ ['\r', '\n'] ∧
     (ingest (DbModel.mk 10 100 []) 0 1).1 = DbModel.mk 10 100 [] ∧
     lateWriteAccept (ingest (DbModel.mk 10 100 []) 0 1).2 = true ∧
     (∀ resp : Str, lateWriteAccept resp = true ↔ pyStrip resp = lateWriteTarget)) :=
  ⟨by decide, C5_late_write_amended (DbModel.mk 10 100 []) 0 1 (by decide)⟩

/- ---------------------------------------------------------------------
   Claim C9: the retry decorator
   (akumulid_test_tools.py, retry lines 304-344)
   --------------------------------------------------------------------- -/

/-- Embeds the loop body of `f_retry` inside `retry`
(akumulid_test_tools.py lines 326-340).  The wrapped operation is
modelled as a function from the invocation index to an `Except` outcome
(`Except.error` is a raise of the checked exception class).  The state
carried by the loop is `mtries`, `mdelay`, the number of invocations so
far, and the list of performed sleeps; the unguarded call after the
loop mirrors the final `return f(*args, **kwargs)`. -/
def retryGo {E A : Type} (f : ℕ → Except E A) (backoff mtries mdelay k : ℕ)
    (sleeps : List ℕ) : Except E A × ℕ × List ℕ :=
  if h : 1 < mtries then
    match f k with
    | Except.ok v => (Except.ok v, k + 1, sleeps)
    | Except.error _ =>
        retryGo f backoff (mtries - 1) (mdelay * backoff) (k + 1) (sleeps ++ [mdelay])
  else
    (f k, k + 1, sleeps)
termination_by mtries
decreasing_by omega

/-- Embeds the wrapper produced by `retry(ExceptionToCheck, tries, delay,
backoff)`: run the loop with `mtries, mdelay = tries, delay`, returning
the outcome, the total number of invocations of the wrapped operation,
and the sleeps performed in order. -/
def f_retry {E A : Type} (f : ℕ → Except E A) (tries delay backoff : ℕ) :
    Except E A × ℕ × List ℕ :=
  retryGo f backoff tries delay 0 []

/-- Peeling one sleep off the geometric backoff schedule. -/
theorem backoff_schedule_shift (mdelay backoff m : ℕ) :
    (List.range (m + 1)).map (fun i => mdelay * backoff ^ i) =
      mdelay :: (List.range m).map (fun i => mdelay * backoff * backoff ^ i) := by
  rw [List.range_succ_eq_map, List.map_cons, List.map_map]
  simp only [pow_zero, mul_one]
  congr 1
  apply List.map_congr_left
  intro i _
  simp only [Function.comp_apply, pow_succ]
  ring

/-- Behaviour of the retry loop when every reachable invocation raises
the checked exception. -/
theorem retryGo_all_error {E A : Type} (f : ℕ → Except E A) (backoff : ℕ) :
    ∀ (mtries mdelay k : ℕ) (sleeps : List ℕ), 1 ≤ mtries →
    (∀ j, j < mtries → ∃ e, f (k + j) = Except.error e) →
    retryGo f backoff mtries mdelay k sleeps =
      (f (k + mtries - 1), k + mtries,
        sleeps ++ (List.range (mtries - 1)).map (fun i => mdelay * backoff ^ i)) := by
  intro mtries
  induction mtries using Nat.strong_induction_on with
  | _ mtries ih =>
    intro mdelay k sleeps h1 herr
    rw [retryGo]
    by_cases hm : 1 < mtries
    · rw [dif_pos hm]
      obtain ⟨e, he⟩ := herr 0 (by omega)
      rw [show f k = Except.error e from by simpa using he]
      rw [ih (mtries - 1) (by omega) (mdelay * backoff) (k + 1) (sleeps ++ [mdelay])
            (by omega)
            (fun j hj => by
              obtain ⟨e2, he2⟩ := herr (j + 1) (by omega)
              exact ⟨e2, by rw [show k + 1 + j = k + (j + 1) by omega]; exact he2⟩)]
      refine congrArg₂ Prod.mk ?_ (congrArg₂ Prod.mk (by omega) ?_)
      · rw [show k + 1 + (mtries - 1) - 1 = k + mtries - 1 by omega]
      · rw [show mtries - 1 = (mtries - 1 - 1) + 1 by omega,
            backoff_schedule_shift, List.append_assoc]
        rfl
    · rw [dif_neg hm]
      have hm1 : mtries = 1 := by omega
      subst hm1
      simp

/-- Behaviour of the retry loop when the invocation at offset `j0` is the
first to return normally. -/
theorem retryGo_first_ok {E A : Type} (f : ℕ → Except E A) (backoff : ℕ) :
    ∀ (j0 mtries mdelay k : ℕ) (sleeps : List ℕ) (v : A),
    j0 < mtries →
    f (k + j0) = Except.ok v →
    (∀ j, j < j0 → ∃ e, f (k + j) = Except.error e) →
    retryGo f backoff mtries mdelay k sleeps =
      (Except.ok v, k + j0 + 1,
        sleeps ++ (List.range j0).map (fun i => mdelay * backoff ^ i)) := by
  intro j0
  induction j0 with
  | zero =>
    intro mtries mdelay k sleeps v hlt hok _
    rw [retryGo]
    by_cases hm : 1 < mtries
    · rw [dif_pos hm]
      rw [show f k = Except.ok v from by simpa using hok]
      simp
    · rw [dif_neg hm]
      rw [show f k = Except.ok v from by simpa using hok]
      simp
  | succ j ihj =>
    intro mtries mdelay k sleeps v hlt hok herr
    rw [retryGo]
    rw [dif_pos (show 1 < mtries by omega)]
    obtain ⟨e, he⟩ := herr 0 (by omega)
    rw [show f k = Except.error e from by simpa using he]
    rw [ihj (mtries - 1) (mdelay * backoff) (k + 1) (sleeps ++ [mdelay]) v
          (by omega)
          (by rw [show k + 1 + j = k + (j + 1) by omega]; exact hok)
          (fun i hi => by
            obtain ⟨e2, he2⟩ := herr (i + 1) (by omega)
            exact ⟨e2, by rw [show k + 1 + i = k + (i + 1) by omega]; exact he2⟩)]
    refine congrArg₂ Prod.mk rfl (congrArg₂ Prod.mk (by omega) ?_)
    rw [backoff_schedule_shift, List.append_assoc]
    rfl

/-- C9: for tries >= 1, if every invocation raises the checked exception
the wrapper invokes the operation exactly `tries` times, sleeping delay *
backoff^(i-1) before the i-th re-invocation, and the outcome of the final
invocation (its exception) propagates; if the first normal return happens
at invocation k = j0 + 1 <= tries, its value is returned after exactly k
invocations, with the same sleep schedule up to that point. -/
theorem C9_retry_behaviour (E A : Type) (f : ℕ → Except E A)
    (tries delay backoff : ℕ) (htries : 1 ≤ tries) :
    ((∀ j, j < tries → ∃ e, f j = Except.error e) →
      f_retry f tries delay backoff =
        (f (tries - 1), tries,
          (List.range (tries - 1)).map (fun i => delay * backoff ^ i))) ∧
    (∀ (j0 : ℕ) (v : A), j0 < tries → f j0 = Except.ok v →
      (∀ j, j < j0 → ∃ e, f j = Except.error e) →
      f_retry f tries delay backoff =
        (Except.ok v, j0 + 1, (List.range j0).map (fun i => delay * backoff ^ i))) := by
  constructor
  · intro herr
    unfold f_retry
    rw [retryGo_all_error f backoff tries delay 0 [] htries
          (fun j hj => by simpa using herr j hj)]
    simp
  · intro j0 v hlt hok herr
    unfold f_retry
    rw [retryGo_first_ok f backoff j0 tries delay 0 [] v hlt (by simpa using hok)
          (fun j hj => by simpa using herr j hj)]
    simp

/-- C9 witness: with tries = 3, delay = 2, backoff = 5 and an operation
failing twice before succeeding with value 7, the wrapper performs 3
invocations and sleeps 2 then 10 seconds; the evaluation conjunct checks
the concrete run. -/
theorem C9_retry_behaviour_witness :
    1 ≤ 3 ∧
    (((∀ j, j < 3 → ∃ e, (fun k => if k = 2 then Except.ok 7 else Except.error 0) j
          = Except.error e) →
      f_retry (fun k => if k = 2 then Except.ok 7 else Except.error 0) 3 2 5 =
        ((fun k => if k = 2 then Except.ok 7 else Except.error 0) (3 - 1), 3,
          (List.range (3 - 1)).map (fun i => 2 * 5 ^ i))) ∧
    (∀ (j0 : ℕ) (v : ℕ), j0 < 3 →
      (fun k => if k = 2 then Except.ok 7 else Except.error 0) j0 = Except.ok v →
      (∀ j, j < j0 → ∃ e, (fun k => if k = 2 then Except.ok 7 else Except.error 0) j
          = Except.error e) →
      f_retry (fun k => if k = 2 then Except.ok 7 else Except.error 0) 3 2 5 =
        (Except.ok v, j0 + 1, (List.range j0).map (fun i => 2 * 5 ^ i)))) ∧
    f_retry (fun k : ℕ => if k = 2 then Except.ok 7 else Except.error (0 : ℕ)) 3 2 5 =
      (Except.ok 7, 3, [2, 10]) :=
  ⟨by decide,
   C9_retry_behaviour ℕ ℕ (fun k => if k = 2 then Except.ok 7 else Except.error 0)
     3 2 5 (by decide),
   by
    have h := (C9_retry_behaviour ℕ ℕ
        (fun k => if k = 2 then Except.ok 7 else Except.error 0) 3 2 5 (by decide)).2
        2 7 (by decide) (by rfl)
        (fun j hj => ⟨0, by interval_cases j <;> rfl⟩)
    rw [h]
    norm_num [List.range_succ]⟩

/- ---------------------------------------------------------------------
   Claim C10 (and C7/C8 timestamps): datetime formatting and parsing
   (akumulid_test_tools.py, parse_timestamp lines 18-23; strftime format
   '%Y%m%dT%H%M%S.%f' used by msg / make_select_query)
   --------------------------------------------------------------------- -/

/-- Decimal digit character, the building block of strftime's zero-padded
numeric fields. -/
def digitChar (d : ℕ) : Char := Char.ofNat (48 + d % 10)

/-- Numeric value of a digit character. -/
def charVal (c : Char) : ℕ := c.toNat - 48

/-- Character class matched by one digit of a strptime numeric field. -/
def isDig (c : Char) : Bool := decide (48 ≤ c.toNat) && decide (c.toNat ≤ 57)

/-- Value of a digit string read most-significant first. -/
def digitsVal (s : Str) : ℕ := s.foldl (fun a c => 10 * a + charVal c) 0

/-- Two-digit zero-padded field (strftime %m, %d, %H, %M, %S). -/
def pad2 (n : ℕ) : Str := [digitChar (n / 10), digitChar n]

/-- Four-digit zero-padded field (strftime %Y). -/
def pad4 (n : ℕ) : Str :=
  [digitChar (n / 1000), digitChar (n / 100), digitChar (n / 10), digitChar n]

/-- Six-digit zero-padded field (strftime %f, microseconds). -/
def pad6 (n : ℕ) : Str :=
  [digitChar (n / 100000), digitChar (n / 10000), digitChar (n / 1000),
   digitChar (n / 100), digitChar (n / 10), digitChar n]

/-- Python `datetime.datetime` restricted to the fields used by the
harness formats. -/
structure DateTime where
  year : ℕ
  month : ℕ
  day : ℕ
  hour : ℕ
  minute : ℕ
  second : ℕ
  micro : ℕ
deriving DecidableEq

/-- Gregorian leap-year rule used by `datetime`. -/
def isLeap (y : ℕ) : Bool := y % 4 == 0 && (y % 100 != 0 || y % 400 == 0)

/-- Length of a month as validated by the `datetime` constructor. -/
def daysInMonth (y m : ℕ) : ℕ :=
  if m = 2 then (if isLeap y then 29 else 28)
  else if m = 4 ∨ m = 6 ∨ m = 9 ∨ m = 11 then 30
  else 31

/-- Datetimes representable by the harness formatter: Python 2 strftime
requires year >= 1900, `datetime` caps the year at 9999, and the other
fields are calendar-valid with microsecond precision. -/
def ValidDT (d : DateTime) : Prop :=
  1900 ≤ d.year ∧ d.year ≤ 9999 ∧ 1 ≤ d.month ∧ d.month ≤ 12 ∧
  1 ≤ d.day ∧ d.day ≤ daysInMonth d.year d.month ∧
  d.hour ≤ 23 ∧ d.minute ≤ 59 ∧ d.second ≤ 59 ∧ d.micro ≤ 999999

instance (d : DateTime) : Decidable (ValidDT d) := by
  unfold ValidDT
  infer_instance

/-- Embeds `strftime('%Y%m%dT%H%M%S')`, the whole-second part of the
harness timestamp format. -/
def strftimeBase (d : DateTime) : Str :=
  pad4 d.year ++ pad2 d.month ++ pad2 d.day ++
    'T' :: (pad2 d.hour ++ pad2 d.minute ++ pad2 d.second)

/-- Embeds `strftime('%Y%m%dT%H%M%S.%f')`, the timestamp format written
by `msg`, `bulk_msg` and the query builders. -/
def strftimeFull (d : DateTime) : Str :=
  strftimeBase d ++ '.' :: pad6 d.micro

/-- Reading exactly `w` digit characters of a strptime numeric field,
returning the value and the remaining input. -/
def takeNum (s : Str) (w : ℕ) : Option (ℕ × Str) :=
  if (s.take w).length == w && (s.take w).all isDig then
    some (digitsVal (s.take w), s.drop w)
  else none

/-- Matching one literal character of a strptime format. -/
def expectCh (s : Str) (c : Char) : Option Str :=
  match s with
  | x :: rest => if x = c then some rest else none
  | [] => none

/-- Embeds the validation performed by the `datetime` constructor that
`strptime` calls: out-of-range fields raise ValueError. -/
def mkDateTime (y mo dd hh mi ss us : ℕ) : Option DateTime :=
  if 1 ≤ y ∧ y ≤ 9999 ∧ 1 ≤ mo ∧ mo ≤ 12 ∧ 1 ≤ dd ∧ dd ≤ daysInMonth y mo ∧
     hh ≤ 23 ∧ mi ≤ 59 ∧ ss ≤ 59 ∧ us ≤ 999999
  then some ⟨y, mo, dd, hh, mi, ss, us⟩ else none

/-- Shared positional parse of `%Y%m%dT%H%M%S`, returning the fields and
the unconsumed remainder. -/
def parseBody (s : Str) : Option (ℕ × ℕ × ℕ × ℕ × ℕ × ℕ × Str) := do
  let (y, s1) ← takeNum s 4
  let (mo, s2) ← takeNum s1 2
  let (dd, s3) ← takeNum s2 2
  let s4 ← expectCh s3 'T'
  let (hh, s5) ← takeNum s4 2
  let (mi, s6) ← takeNum s5 2
  let (ss, s7) ← takeNum s6 2
  pure (y, mo, dd, hh, mi, ss, s7)

/-- Embeds `datetime.datetime.strptime(t, "%Y%m%dT%H%M%S")`: the whole
input must be consumed. -/
def strptimeNoFrac (s : Str) : Option DateTime := do
  let (y, mo, dd, hh, mi, ss, rest) ← parseBody s
  if rest = [] then mkDateTime y mo dd hh mi ss 0 else none

/-- Embeds `datetime.datetime.strptime(t, "%Y%m%dT%H%M%S.%f")`: after the
dot, `%f` matches 1 to 6 digits and pads them on the right to
microseconds. -/
def strptimeFrac (s : Str) : Option DateTime := do
  let (y, mo, dd, hh, mi, ss, rest) ← parseBody s
  let frac ← expectCh rest '.'
  if frac ≠ [] ∧ frac.length ≤ 6 ∧ frac.all isDig = true then
    mkDateTime y mo dd hh mi ss (digitsVal frac * 10 ^ (6 - frac.length))
  else none

/-- Embeds Python `s.rstrip('0')`. -/
def rstripZeros (s : Str) : Str := (s.reverse.dropWhile (fun c => c == '0')).reverse

/-- Embeds Python `s.rstrip('.')`. -/
def rstripDot (s : Str) : Str := (s.reverse.dropWhile (fun c => c == '.')).reverse

/-- Embeds `parse_timestamp` (akumulid_test_tools.py lines 18-23): strip
trailing zeros then a trailing dot, try the fractional format, fall back
to the whole-second format. -/
def parse_timestamp (s : Str) : Option DateTime :=
  match strptimeFrac (rstripDot (rstripZeros s)) with
  | some d => some d
  | none => strptimeNoFrac (rstripDot (rstripZeros s))

/-- Digit characters decode to the digit they encode. -/
theorem charVal_digitChar (d : ℕ) : charVal (digitChar d) = d % 10 := by
  have h : d % 10 < 10 := by omega
  unfold charVal digitChar
  revert h
  generalize d % 10 = k
  intro h
  interval_cases k <;> decide

/-- Digit characters are in the strptime digit class. -/
theorem isDig_digitChar (d : ℕ) : isDig (digitChar d) = true := by
  have h : d % 10 < 10 := by omega
  unfold isDig digitChar
  revert h
  generalize d % 10 = k
  intro h
  interval_cases k <;> decide

/-- Digit characters are never the fraction separator. -/
theorem digitChar_ne_dot (d : ℕ) : (digitChar d == '.') = false := by
  have h : d % 10 < 10 := by omega
  unfold digitChar
  revert h
  generalize d % 10 = k
  intro h
  interval_cases k <;> decide

/-- Characters of the digit class are never the fraction separator. -/
theorem isDig_ne_dot {c : Char} (h : isDig c = true) : (c == '.') = false := by
  cases hb : (c == '.')
  · rfl
  · have : c = '.' := eq_of_beq hb
    subst this
    exact absurd h (by decide)

/-- Length of the two-digit field. -/
theorem pad2_length (n : ℕ) : (pad2 n).length = 2 := rfl

/-- Length of the four-digit field. -/
theorem pad4_length (n : ℕ) : (pad4 n).length = 4 := rfl

/-- Length of the six-digit field. -/
theorem pad6_length (n : ℕ) : (pad6 n).length = 6 := rfl

/-- Two-digit fields decode to their value. -/
theorem digitsVal_pad2 (n : ℕ) (h : n ≤ 99) : digitsVal (pad2 n) = n := by
  simp [digitsVal, pad2, charVal_digitChar]
  omega

/-- Four-digit fields decode to their value. -/
theorem digitsVal_pad4 (n : ℕ) (h : n ≤ 9999) : digitsVal (pad4 n) = n := by
  simp [digitsVal, pad4, charVal_digitChar]
  omega

/-- Six-digit fields decode to their value. -/
theorem digitsVal_pad6 (n : ℕ) (h : n ≤ 999999) : digitsVal (pad6 n) = n := by
  simp [digitsVal, pad6, charVal_digitChar]
  omega

/-- Two-digit fields are all digits. -/
theorem pad2_all_isDig (n : ℕ) : (pad2 n).all isDig = true := by
  simp [pad2, isDig_digitChar]

/-- Four-digit fields are all digits. -/
theorem pad4_all_isDig (n : ℕ) : (pad4 n).all isDig = true := by
  simp [pad4, isDig_digitChar]

/-- Six-digit fields are all digits. -/
theorem pad6_all_isDig (n : ℕ) : (pad6 n).all isDig = true := by
  simp [pad6, isDig_digitChar]

/-- Reading a two-digit field off the front of the input. -/
theorem takeNum_pad2 (n : ℕ) (rest : Str) (h : n ≤ 99) :
    takeNum (pad2 n ++ rest) 2 = some (n, rest) := by
  unfold takeNum
  rw [List.take_left' (pad2_length n), List.drop_left' (pad2_length n)]
  rw [if_pos]
  · rw [digitsVal_pad2 n h]
  · rw [pad2_length, pad2_all_isDig]
    rfl

/-- Reading a four-digit field off the front of the input. -/
theorem takeNum_pad4 (n : ℕ) (rest : Str) (h : n ≤ 9999) :
    takeNum (pad4 n ++ rest) 4 = some (n, rest) := by
  unfold takeNum
  rw [List.take_left' (pad4_length n), List.drop_left' (pad4_length n)]
  rw [if_pos]
  · rw [digitsVal_pad4 n h]
  · rw [pad4_length, pad4_all_isDig]
    rfl

/-- Months have at most 31 days. -/
theorem daysInMonth_le (y m : ℕ) : daysInMonth y m ≤ 31 := by
  unfold daysInMonth
  split
  · split <;> omega
  · split <;> omega

/-- Positional parse of the fixed part of a formatted valid datetime. -/
theorem parseBody_fmt (d : DateTime) (hv : ValidDT d) (tail : Str) :
    parseBody (strftimeBase d ++ tail) =
      some (d.year, d.month, d.day, d.hour, d.minute, d.second, tail) := by
  obtain ⟨h1, h2, h3, h4, h5, h6, h7, h8, h9, h10⟩ := hv
  have hday : d.day ≤ 99 :=
    le_trans h6 (le_trans (daysInMonth_le d.year d.month) (by norm_num))
  unfold parseBody strftimeBase
  simp only [List.cons_append, List.append_assoc]
  rw [takeNum_pad4 d.year _ h2]
  simp only [Option.bind_eq_bind, Option.some_bind]
  rw [takeNum_pad2 d.month _ (by omega)]
  simp only [Option.some_bind]
  rw [takeNum_pad2 d.day _ hday]
  simp only [Option.some_bind]
  show (expectCh ('T' :: _) 'T').bind _ = _
  rw [show ∀ r : Str, expectCh ('T' :: r) 'T' = some r from fun r => rfl]
  simp only [Option.some_bind]
  rw [takeNum_pad2 d.hour _ (by omega)]
  simp only [Option.some_bind]
  rw [takeNum_pad2 d.minute _ (by omega)]
  simp only [Option.some_bind]
  rw [takeNum_pad2 d.second _ (by omega)]
  simp only [Option.some_bind, Option.pure_def]

/-- Right-stripping drops an entire trailing block of characters
satisfying the predicate. -/
theorem rstrip_p_append_sat (p : Char → Bool) (xs ys : Str)
    (hys : ∀ c ∈ ys, p c = true) :
    ((xs ++ ys).reverse.dropWhile p).reverse = (xs.reverse.dropWhile p).reverse := by
  rw [List.reverse_append, List.dropWhile_append]
  have h : ys.reverse.dropWhile p = [] :=
    List.dropWhile_eq_nil_iff.mpr (fun x hx => hys x (List.mem_reverse.mp hx))
  rw [if_pos (by rw [h]; rfl)]

/-- Right-stripping is the identity when the last character does not
satisfy the predicate. -/
theorem rstrip_p_last_no (p : Char → Bool) (xs : Str) (c : Char)
    (h : p c = false) :
    ((xs ++ [c]).reverse.dropWhile p).reverse = xs ++ [c] := by
  rw [List.reverse_append,
      show ([c] : Str).reverse = [c] from rfl,
      List.singleton_append,
      List.dropWhile_cons_of_neg (by simp [h]),
      List.reverse_cons, List.reverse_reverse]

/-- Every string is its zero-stripped form plus trailing zeros. -/
theorem rstripZeros_spec (s : Str) :
    s = rstripZeros s ++ List.replicate (s.length - (rstripZeros s).length) '0' := by
  unfold rstripZeros
  conv_lhs => rw [← List.reverse_reverse s,
    ← List.takeWhile_append_dropWhile (fun c => c == '0') s.reverse]
  rw [List.reverse_append]
  congr 1
  have hmem : ∀ b ∈ (List.takeWhile (fun c => c == '0') s.reverse).reverse, b = '0' := by
    intro b hb
    rw [List.mem_reverse] at hb
    have hp := List.mem_takeWhile_imp hb
    exact eq_of_beq hp
  have hlen : (List.takeWhile (fun c => c == '0') s.reverse).reverse.length
      = s.length - ((List.dropWhile (fun c => c == '0') s.reverse).reverse).length := by
    have hsum : (List.takeWhile (fun c => c == '0') s.reverse).length
        + (List.dropWhile (fun c => c == '0') s.reverse).length = s.length := by
      rw [← List.length_append, List.takeWhile_append_dropWhile, List.length_reverse]
    simp only [List.length_reverse]
    omega
  rw [← hlen]
  exact List.eq_replicate_of_mem hmem

/-- Zero-stripping never lengthens a string. -/
theorem rstripZeros_length_le (s : Str) : (rstripZeros s).length ≤ s.length := by
  unfold rstripZeros
  rw [List.length_reverse]
  exact le_trans (List.dropWhile_sublist _).length_le (le_of_eq (List.length_reverse _))

/-- Zero-stripping keeps only characters of the original string. -/
theorem rstripZeros_subset (s : Str) : ∀ c ∈ rstripZeros s, c ∈ s := by
  intro c hc
  unfold rstripZeros at hc
  rw [List.mem_reverse] at hc
  exact List.mem_reverse.mp ((List.dropWhile_sublist _).subset hc)

/-- Trailing zeros multiply the decoded value by the matching power of
ten. -/
theorem digitsVal_append_replicate_zero (s : Str) (k : ℕ) :
    digitsVal (s ++ List.replicate k '0') = digitsVal s * 10 ^ k := by
  unfold digitsVal
  rw [List.foldl_append]
  suffices h : ∀ a : ℕ, List.foldl (fun a c => 10 * a + charVal c) a
      (List.replicate k '0') = a * 10 ^ k from h _
  induction k with
  | zero => intro a; simp
  | succ n ih =>
    intro a
    rw [List.replicate_succ, List.foldl_cons, ih]
    rw [show charVal '0' = 0 from rfl]
    ring

/-- Every character of a six-digit field is a digit. -/
theorem pad6_mem_isDig (n : ℕ) : ∀ c ∈ pad6 n, isDig c = true := by
  intro c hc
  simp only [pad6, List.mem_cons, List.not_mem_nil, or_false] at hc
  rcases hc with rfl | rfl | rfl | rfl | rfl | rfl <;> exact isDig_digitChar _

/-- A nonzero microsecond field does not strip to nothing. -/
theorem dw_ne_nil (m : ℕ) (hm : m ≠ 0) (hle : m ≤ 999999) :
    (pad6 m).reverse.dropWhile (fun c => c == '0') ≠ [] := by
  intro h
  have hall := List.dropWhile_eq_nil_iff.mp h
  have hmem : ∀ b ∈ pad6 m, b = '0' := fun b hb =>
    eq_of_beq (hall b (List.mem_reverse.mpr hb))
  have hrep : pad6 m = List.replicate 6 '0' := by
    have := List.eq_replicate_of_mem hmem
    rwa [pad6_length] at this
  have hdv := digitsVal_pad6 m hle
  rw [hrep] at hdv
  have h0 : digitsVal (List.replicate 6 '0') = 0 := by decide
  rw [h0] at hdv
  exact hm hdv.symm

/-- The stripped microsecond field consists of digits. -/
theorem rz_all_isDig (m : ℕ) : (rstripZeros (pad6 m)).all isDig = true := by
  rw [List.all_eq_true]
  intro c hc
  exact pad6_mem_isDig m c (rstripZeros_subset _ c hc)

/-- Right-padding the stripped microsecond field with zeros recovers the
microsecond count. -/
theorem rz_val (m : ℕ) (hle : m ≤ 999999) :
    digitsVal (rstripZeros (pad6 m)) *
      10 ^ (6 - (rstripZeros (pad6 m)).length) = m := by
  have hspec := rstripZeros_spec (pad6 m)
  rw [pad6_length] at hspec
  calc digitsVal (rstripZeros (pad6 m)) * 10 ^ (6 - (rstripZeros (pad6 m)).length)
      = digitsVal (rstripZeros (pad6 m) ++
          List.replicate (6 - (rstripZeros (pad6 m)).length) '0') :=
        (digitsVal_append_replicate_zero _ _).symm
    _ = digitsVal (pad6 m) := by rw [← hspec]
    _ = m := digitsVal_pad6 m hle

/-- The formatted fixed part ends with the low digit of the seconds. -/
theorem strftimeBase_snoc (d : DateTime) :
    strftimeBase d = (pad4 d.year ++ pad2 d.month ++ pad2 d.day ++
      'T' :: (pad2 d.hour ++ pad2 d.minute ++ [digitChar (d.second / 10)])) ++
      [digitChar d.second] := by
  simp [strftimeBase, pad2, List.append_assoc]

/-- Stripping a formatted timestamp with an all-zero fraction removes the
whole fraction but stops at the dot. -/
theorem rstripZeros_strftimeFull_zero (d : DateTime) (hm : d.micro = 0) :
    rstripZeros (strftimeFull d) = strftimeBase d ++ ['.'] := by
  unfold strftimeFull rstripZeros
  rw [hm]
  rw [show strftimeBase d ++ '.' :: pad6 0
      = (strftimeBase d ++ ['.']) ++ List.replicate 6 '0' by
    rw [show pad6 0 = List.replicate 6 '0' by decide]
    simp]
  rw [rstrip_p_append_sat _ _ _ (fun c hc => by
    rw [List.eq_of_mem_replicate hc]; rfl)]
  exact rstrip_p_last_no _ _ _ (by decide)

/-- Stripping the then-trailing dot removes it but stops at the seconds
digit. -/
theorem rstripDot_base_dot (d : DateTime) :
    rstripDot (strftimeBase d ++ ['.']) = strftimeBase d := by
  unfold rstripDot
  rw [rstrip_p_append_sat _ _ _ (fun c hc => by
    rw [List.mem_singleton.mp hc]; rfl)]
  conv_lhs => rw [strftimeBase_snoc d]
  rw [rstrip_p_last_no (fun c => c == '.')
    (pad4 d.year ++ pad2 d.month ++ pad2 d.day ++
      'T' :: (pad2 d.hour ++ pad2 d.minute ++ [digitChar (d.second / 10)]))
    (digitChar d.second) (digitChar_ne_dot d.second)]
  exact (strftimeBase_snoc d).symm

/-- Stripping a formatted timestamp with a nonzero fraction strips only
the fraction's trailing zeros. -/
theorem rstripZeros_strftimeFull_pos (d : DateTime) (hm : d.micro ≠ 0)
    (hle : d.micro ≤ 999999) :
    rstripZeros (strftimeFull d) =
      strftimeBase d ++ '.' :: rstripZeros (pad6 d.micro) := by
  unfold strftimeFull rstripZeros
  rw [show (strftimeBase d ++ '.' :: pad6 d.micro).reverse
      = (pad6 d.micro).reverse ++ ('.' :: (strftimeBase d).reverse) by simp]
  rw [List.dropWhile_append]
  rw [if_neg (fun hc => dw_ne_nil d.micro hm hle (List.isEmpty_iff.mp hc))]
  simp [List.reverse_append]

/-- The dot-strip is a no-op on a stripped nonzero fraction because its
last character is a digit. -/
theorem rstripDot_strip_pos (d : DateTime) (hm : d.micro ≠ 0)
    (hle : d.micro ≤ 999999) :
    rstripDot (strftimeBase d ++ '.' :: rstripZeros (pad6 d.micro)) =
      strftimeBase d ++ '.' :: rstripZeros (pad6 d.micro) := by
  obtain ⟨c, t, hdw⟩ : ∃ c t,
      (pad6 d.micro).reverse.dropWhile (fun c => c == '0') = c :: t := by
    cases hcase : (pad6 d.micro).reverse.dropWhile (fun c => c == '0') with
    | nil => exact absurd hcase (dw_ne_nil _ hm hle)
    | cons c t => exact ⟨c, t, rfl⟩
  have hrz : rstripZeros (pad6 d.micro) = t.reverse ++ [c] := by
    unfold rstripZeros
    rw [hdw, List.reverse_cons]
  have hcmem : c ∈ pad6 d.micro := by
    have hmem : c ∈ (pad6 d.micro).reverse :=
      (List.dropWhile_sublist _).subset (hdw ▸ List.mem_cons_self c t)
    exact List.mem_reverse.mp hmem
  have hcdot : (c == '.') = false := isDig_ne_dot (pad6_mem_isDig _ c hcmem)
  rw [hrz]
  rw [show strftimeBase d ++ '.' :: (t.reverse ++ [c])
      = (strftimeBase d ++ '.' :: t.reverse) ++ [c] by simp]
  unfold rstripDot
  exact rstrip_p_last_no _ _ _ hcdot

/-- C10: parsing round-trips formatting.  For every datetime the
formatter can represent, `parse_timestamp` applied to the
`%Y%m%dT%H%M%S.%f` rendering returns the datetime exactly; stripping
trailing zeros (and a then-trailing dot) from the fractional field never
changes the parsed instant, including when the fraction is all zeros. -/
theorem C10_parse_timestamp_roundtrip (d : DateTime) (hv : ValidDT d) :
    parse_timestamp (strftimeFull d) = some d := by
  have hv2 := hv
  obtain ⟨h1, h2, h3, h4, h5, h6, h7, h8, h9, h10⟩ := hv2
  by_cases hm : d.micro = 0
  · have hstrip : rstripDot (rstripZeros (strftimeFull d)) = strftimeBase d := by
      rw [rstripZeros_strftimeFull_zero d hm, rstripDot_base_dot d]
    unfold parse_timestamp
    rw [hstrip]
    have hp := parseBody_fmt d hv []
    rw [List.append_nil] at hp
    have hfrac : strptimeFrac (strftimeBase d) = none := by
      unfold strptimeFrac
      rw [hp]
      simp only [Option.bind_eq_bind, Option.some_bind]
      rfl
    rw [hfrac]
    unfold strptimeNoFrac
    rw [hp]
    simp only [Option.bind_eq_bind, Option.some_bind]
    rw [if_pos trivial]
    unfold mkDateTime
    rw [if_pos ⟨by omega, h2, h3, h4, h5, h6, h7, h8, h9, by omega⟩]
    rw [← hm]
  · have hstrip : rstripDot (rstripZeros (strftimeFull d)) =
        strftimeBase d ++ '.' :: rstripZeros (pad6 d.micro) := by
      rw [rstripZeros_strftimeFull_pos d hm h10, rstripDot_strip_pos d hm h10]
    unfold parse_timestamp
    rw [hstrip]
    have hfrac : strptimeFrac (strftimeBase d ++ '.' :: rstripZeros (pad6 d.micro))
        = some d := by
      unfold strptimeFrac
      rw [parseBody_fmt d hv ('.' :: rstripZeros (pad6 d.micro))]
      simp only [Option.bind_eq_bind, Option.some_bind]
      rw [show expectCh ('.' :: rstripZeros (pad6 d.micro)) '.'
          = some (rstripZeros (pad6 d.micro)) from rfl]
      simp only [Option.some_bind]
      have hne : rstripZeros (pad6 d.micro) ≠ [] := by
        intro hc
        unfold rstripZeros at hc
        rw [List.reverse_eq_nil_iff] at hc
        exact dw_ne_nil d.micro hm h10 hc
      have hlen : (rstripZeros (pad6 d.micro)).length ≤ 6 := by
        have hl := rstripZeros_length_le (pad6 d.micro)
        rwa [pad6_length] at hl
      rw [if_pos ⟨hne, hlen, rz_all_isDig d.micro⟩]
      unfold mkDateTime
      have hus := rz_val d.micro h10
      rw [if_pos ⟨by omega, h2, h3, h4, h5, h6, h7, h8, h9, by rw [hus]; exact h10⟩]
      rw [hus]
    rw [hfrac]

/-- C10 witness: the instant 2017-01-07 12:03:05.140000 exercises a
fraction with trailing zeros; parsing its rendering recovers it
exactly. -/
theorem C10_parse_timestamp_roundtrip_witness :
    ValidDT (DateTime.mk 2017 1 7 12 3 5 140000) ∧
    parse_timestamp (strftimeFull (DateTime.mk 2017 1 7 12 3 5 140000)) =
      some (DateTime.mk 2017 1 7 12 3 5 140000) :=
  ⟨by decide,
   C10_parse_timestamp_roundtrip (DateTime.mk 2017 1 7 12 3 5 140000) (by decide)⟩

/- ---------------------------------------------------------------------
   Claims C7 and C8: the ingestion frame builders
   (akumulid_test_tools.py, msg lines 58-62 and bulk_msg lines 64-73)
   --------------------------------------------------------------------- -/

/-- Line terminator of the ingestion protocol. -/
def crlf : Str := ['\r', '\n']

/-- Embeds Python `sep.join(parts)`. -/
def joinWith (sep : Str) : List Str → Str
  | [] => []
  | [t] => t
  | t :: ts => t ++ sep ++ joinWith sep ts

/-- Embeds the tag rendering `'{0}={1}'.format(key, val)`. -/
def fmtTagPair (p : Str × Str) : Str := p.1 ++ '=' :: p.2

/-- Embeds `' '.join(['{0}={1}'.format(key, val) for ...])` over the tag
association list (Python dict iteration order). -/
def tagJoin (tags : List (Str × Str)) : Str :=
  joinWith [' '] (tags.map fmtTagPair)

/-- Decimal rendering of a natural number, embedding `'{0}'.format(n)`. -/
def natDigits (n : ℕ) : Str :=
  if n < 10 then [digitChar n] else natDigits (n / 10) ++ [digitChar n]
termination_by n
decreasing_by omega

/-- Embeds `msg` (akumulid_test_tools.py lines 58-62): the single-value
frame `'\r\n'.join([sseries, timestr, strval]) + '\r\n'` with the series
line first, the strftime timestamp line second and the value line third,
each prefixed with `+`.  The value is modelled as its rendered string. -/
def msg (ts : DateTime) (value metric : Str) (tags : List (Str × Str)) : Str :=
  joinWith crlf
    [('+' :: metric) ++ ' ' :: tagJoin tags,
     '+' :: strftimeFull ts,
     '+' :: value] ++ crlf

/-- Embeds `bulk_msg` (akumulid_test_tools.py lines 64-73): the series
line carries the metric names joined by `|`, then the timestamp line,
the `*N` count header, and one `+`-prefixed value line per measurement
in dict iteration order (measurements are modelled as an association
list, whose order is shared by `keys()` and `iteritems()`). -/
def bulk_msg (ts : DateTime) (measurements tags : List (Str × Str)) : Str :=
  joinWith crlf
    ([('+' :: joinWith ['|'] (measurements.map Prod.fst)) ++ ' ' :: tagJoin tags,
      '+' :: strftimeFull ts,
      '*' :: natDigits measurements.length] ++
     measurements.map (fun p => '+' :: p.2)) ++ crlf

/-- Splitting a byte string at every CRLF pair, the observer used to
count the frame's lines. -/
def crlfSplit : Str → List Str
  | [] => [[]]
  | [c] => [[c]]
  | a :: b :: rest =>
      if a = '\r' ∧ b = '\n' then [] :: crlfSplit rest
      else
        match crlfSplit (b :: rest) with
        | h :: t => (a :: h) :: t
        | [] => [[a]]

/-- CRLF-terminated lines of a byte string: the split segments except the
final empty remainder. -/
def crlfLines (s : Str) : List Str := (crlfSplit s).dropLast

/-- Characters legal inside one protocol line. -/
def goodLine (s : Str) : Prop := ∀ c ∈ s, c ≠ '\r' ∧ c ≠ '\n'

instance (s : Str) : Decidable (goodLine s) := by
  unfold goodLine
  infer_instance

/-- Concatenation preserves line well-formedness. -/
theorem goodLine_append {a b : Str} (ha : goodLine a) (hb : goodLine b) :
    goodLine (a ++ b) := by
  intro c hc
  rcases List.mem_append.mp hc with h | h
  · exact ha c h
  · exact hb c h

/-- Extending by a legal character preserves line well-formedness. -/
theorem goodLine_cons {c : Char} {t : Str} (hc : c ≠ '\r' ∧ c ≠ '\n')
    (ht : goodLine t) : goodLine (c :: t) := by
  intro x hx
  rcases List.mem_cons.mp hx with rfl | h
  · exact hc
  · exact ht x h

/-- Digit characters are legal inside a line. -/
theorem digitChar_good (x : ℕ) : digitChar x ≠ '\r' ∧ digitChar x ≠ '\n' := by
  have h : x % 10 < 10 := by omega
  unfold digitChar
  revert h
  generalize x % 10 = k
  intro h
  interval_cases k <;> exact ⟨by decide, by decide⟩

/-- Two-digit fields are legal inside a line. -/
theorem pad2_good (n : ℕ) : goodLine (pad2 n) := by
  intro c hc
  simp only [pad2, List.mem_cons, List.not_mem_nil, or_false] at hc
  rcases hc with rfl | rfl <;> exact digitChar_good _

/-- Four-digit fields are legal inside a line. -/
theorem pad4_good (n : ℕ) : goodLine (pad4 n) := by
  intro c hc
  simp only [pad4, List.mem_cons, List.not_mem_nil, or_false] at hc
  rcases hc with rfl | rfl | rfl | rfl <;> exact digitChar_good _

/-- Six-digit fields are legal inside a line. -/
theorem pad6_good (n : ℕ) : goodLine (pad6 n) := by
  intro c hc
  simp only [pad6, List.mem_cons, List.not_mem_nil, or_false] at hc
  rcases hc with rfl | rfl | rfl | rfl | rfl | rfl <;> exact digitChar_good _

/-- Formatted timestamps are legal inside a line. -/
theorem strftimeFull_good (d : DateTime) : goodLine (strftimeFull d) :=
  goodLine_append
    (goodLine_append
      (goodLine_append
        (goodLine_append (pad4_good d.year) (pad2_good d.month))
        (pad2_good d.day))
      (goodLine_cons (by decide)
        (goodLine_append
          (goodLine_append (pad2_good d.hour) (pad2_good d.minute))
          (pad2_good d.second))))
    (goodLine_cons (by decide) (pad6_good d.micro))

/-- Decimal renderings are legal inside a line. -/
theorem natDigits_good (n : ℕ) : goodLine (natDigits n) := by
  induction n using Nat.strong_induction_on with
  | _ n ih =>
    unfold natDigits
    split
    · intro c hc
      simp only [List.mem_cons, List.not_mem_nil, or_false] at hc
      subst hc
      exact digitChar_good _
    · exact goodLine_append (ih (n / 10) (by omega))
        (fun c hc => by
          simp only [List.mem_cons, List.not_mem_nil, or_false] at hc
          subst hc
          exact digitChar_good _)

/-- Joining legal lines with a legal separator stays legal. -/
theorem goodLine_joinWith (sep : Str) (hsep : goodLine sep) (ts : List Str)
    (hts : ∀ t ∈ ts, goodLine t) : goodLine (joinWith sep ts) := by
  induction ts with
  | nil => intro c hc; exact absurd hc (List.not_mem_nil c)
  | cons t rest ih =>
    cases rest with
    | nil =>
      show goodLine (joinWith sep [t])
      exact hts t (List.mem_cons_self _ _)
    | cons u rest2 =>
      show goodLine (t ++ sep ++ joinWith sep (u :: rest2))
      exact goodLine_append
        (goodLine_append (hts t (List.mem_cons_self _ _)) hsep)
        (ih (fun x hx => hts x (List.mem_cons_of_mem _ hx)))

/-- Tag renderings of legal keys and values are legal. -/
theorem tagJoin_good (tags : List (Str × Str))
    (htags : ∀ p ∈ tags, goodLine p.1 ∧ goodLine p.2) : goodLine (tagJoin tags) := by
  refine goodLine_joinWith _ (by decide) _ ?_
  intro t ht
  rcases List.mem_map.mp ht with ⟨p, hp, rfl⟩
  exact goodLine_append (htags p hp).1
    (goodLine_cons (by decide) (htags p hp).2)

/-- Splitting after a CRLF-free segment peels it off as one line. -/
theorem crlfSplit_good_append (x rest : Str) (hx : goodLine x) :
    crlfSplit (x ++ '\r' :: '\n' :: rest) = x :: crlfSplit rest := by
  induction x with
  | nil =>
    show crlfSplit ('\r' :: '\n' :: rest) = [] :: crlfSplit rest
    rw [crlfSplit]
    rw [if_pos ⟨rfl, rfl⟩]
  | cons c x' ih =>
    have hc := hx c (List.mem_cons_self _ _)
    have hx' : goodLine x' := fun a ha => hx a (List.mem_cons_of_mem _ ha)
    rw [List.cons_append]
    cases x' with
    | nil =>
      rw [show ([] : Str) ++ '\r' :: '\n' :: rest = '\r' :: '\n' :: rest from rfl]
      rw [crlfSplit]
      rw [if_neg (fun h => hc.1 h.1)]
      have ihe := ih hx'
      rw [show ([] : Str) ++ '\r' :: '\n' :: rest = '\r' :: '\n' :: rest from rfl] at ihe
      rw [ihe]
    | cons a x'' =>
      rw [List.cons_append]
      rw [crlfSplit]
      rw [if_neg (fun h => hc.1 h.1)]
      have ihe := ih hx'
      rw [List.cons_append] at ihe
      rw [ihe]

/-- Splitting a CRLF-joined frame of legal lines recovers the lines plus
the empty remainder. -/
theorem crlfSplit_joinWith (lines : List Str) (hne : lines ≠ [])
    (hl : ∀ l ∈ lines, goodLine l) :
    crlfSplit (joinWith crlf lines ++ crlf) = lines ++ [[]] := by
  induction lines with
  | nil => exact absurd rfl hne
  | cons l rest ih =>
    cases rest with
    | nil =>
      show crlfSplit (l ++ crlf) = [l, []]
      rw [show l ++ crlf = l ++ '\r' :: '\n' :: [] by rfl]
      rw [crlfSplit_good_append l [] (hl l (List.mem_cons_self _ _))]
      rfl
    | cons u rest2 =>
      show crlfSplit ((l ++ crlf ++ joinWith crlf (u :: rest2)) ++ crlf) = _
      rw [show (l ++ crlf ++ joinWith crlf (u :: rest2)) ++ crlf
          = l ++ '\r' :: '\n' :: (joinWith crlf (u :: rest2) ++ crlf) by
        simp [crlf]]
      rw [crlfSplit_good_append _ _ (hl l (List.mem_cons_self _ _))]
      rw [ih (by simp) (fun x hx => hl x (List.mem_cons_of_mem _ hx))]
      rfl

/-- Line decomposition of a CRLF-joined frame of legal lines. -/
theorem crlfLines_joinWith (lines : List Str) (hne : lines ≠ [])
    (hl : ∀ l ∈ lines, goodLine l) :
    crlfLines (joinWith crlf lines ++ crlf) = lines := by
  rw [crlfLines, crlfSplit_joinWith lines hne hl, List.dropLast_concat]

/-- C8: the single-value frame builder returns exactly three lines, each
CRLF-terminated and each beginning with `+`: first the series line
(metric followed by the tag pairs), then the timestamp line, then the
value line, with nothing after the third line's CRLF. -/
theorem C8_msg_frame (ts : DateTime) (value metric : Str) (tags : List (Str × Str))
    (hval : goodLine value) (hmet : goodLine metric)
    (htags : ∀ p ∈ tags, goodLine p.1 ∧ goodLine p.2) :
    msg ts value metric tags =
      ((('+' :: metric) ++ ' ' :: tagJoin tags) ++ '\r' :: '\n' ::
        (('+' :: strftimeFull ts) ++ '\r' :: '\n' ::
          (('+' :: value) ++ ['\r', '\n']))) ∧
    crlfLines (msg ts value metric tags) =
      [('+' :: metric) ++ ' ' :: tagJoin tags,
       '+' :: strftimeFull ts,
       '+' :: value] ∧
    (crlfLines (msg ts value metric tags)).length = 3 ∧
    (∀ l ∈ crlfLines (msg ts value metric tags), l.head? = some '+') := by
  have hl : ∀ l ∈ [('+' :: metric) ++ ' ' :: tagJoin tags,
      '+' :: strftimeFull ts, '+' :: value], goodLine l := by
    intro l hmem
    simp only [List.mem_cons, List.not_mem_nil, or_false] at hmem
    rcases hmem with rfl | rfl | rfl
    · exact goodLine_append (goodLine_cons (by decide) hmet)
        (goodLine_cons (by decide) (tagJoin_good tags htags))
    · exact goodLine_cons (by decide) (strftimeFull_good ts)
    · exact goodLine_cons (by decide) hval
  have hlines : crlfLines (msg ts value metric tags) =
      [('+' :: metric) ++ ' ' :: tagJoin tags,
       '+' :: strftimeFull ts, '+' :: value] := by
    unfold msg
    exact crlfLines_joinWith _ (by simp) hl
  refine ⟨?_, hlines, ?_, ?_⟩
  · show joinWith crlf _ ++ crlf = _
    simp [joinWith, crlf, List.append_assoc]
  · rw [hlines]
    rfl
  · intro l hmem
    rw [hlines] at hmem
    simp only [List.mem_cons, List.not_mem_nil, or_false] at hmem
    rcases hmem with rfl | rfl | rfl <;> rfl

/-- C8 witness: a concrete single-value frame for metric `test`, value
`3.5`, one tag pair. -/
theorem C8_msg_frame_witness :
    goodLine "3.5".data ∧ goodLine "test".data ∧
    (∀ p ∈ [("tag1".data, "A".data)], goodLine p.1 ∧ goodLine p.2) ∧
    (msg (DateTime.mk 2017 1 7 12 3 5 140000) "3.5".data "test".data
        [("tag1".data, "A".data)] =
      ((('+' :: "test".data) ++ ' ' :: tagJoin [("tag1".data, "A".data)]) ++
        '\r' :: '\n' ::
        (('+' :: strftimeFull (DateTime.mk 2017 1 7 12 3 5 140000)) ++ '\r' :: '\n' ::
          (('+' :: "3.5".data) ++ ['\r', '\n']))) ∧
    crlfLines (msg (DateTime.mk 2017 1 7 12 3 5 140000) "3.5".data "test".data
        [("tag1".data, "A".data)]) =
      [('+' :: "test".data) ++ ' ' :: tagJoin [("tag1".data, "A".data)],
       '+' :: strftimeFull (DateTime.mk 2017 1 7 12 3 5 140000),
       '+' :: "3.5".data] ∧
    (crlfLines (msg (DateTime.mk 2017 1 7 12 3 5 140000) "3.5".data "test".data
        [("tag1".data, "A".data)])).length = 3 ∧
    (∀ l ∈ crlfLines (msg (DateTime.mk 2017 1 7 12 3 5 140000) "3.5".data "test".data
        [("tag1".data, "A".data)]), l.head? = some '+')) :=
  ⟨by decide, by decide, by decide,
   C8_msg_frame (DateTime.mk 2017 1 7 12 3 5 140000) "3.5".data "test".data
     [("tag1".data, "A".data)] (by decide) (by decide) (by decide)⟩

/-- C7: for a non-empty measurement mapping of n metrics the bulk frame
builder returns exactly n+3 CRLF-terminated lines: a `+`-prefixed series
line whose metric part is the n metric names joined by `|`, a
`+`-prefixed timestamp line, the count header `*n`, and n `+`-prefixed
value lines in the same association-list order as the joined metric
names. -/
theorem C7_bulk_msg_frame (ts : DateTime) (ms tags : List (Str × Str))
    (hne : ms ≠ [])
    (hms : ∀ p ∈ ms, goodLine p.1 ∧ goodLine p.2)
    (htags : ∀ p ∈ tags, goodLine p.1 ∧ goodLine p.2) :
    crlfLines (bulk_msg ts ms tags) =
      (('+' :: joinWith ['|'] (ms.map Prod.fst)) ++ ' ' :: tagJoin tags)
        :: ('+' :: strftimeFull ts)
        :: ('*' :: natDigits ms.length)
        :: ms.map (fun p => '+' :: p.2) ∧
    (crlfLines (bulk_msg ts ms tags)).length = ms.length + 3 := by
  have hl : ∀ l ∈ (('+' :: joinWith ['|'] (ms.map Prod.fst)) ++ ' ' :: tagJoin tags)
      :: ('+' :: strftimeFull ts)
      :: ('*' :: natDigits ms.length)
      :: ms.map (fun p => '+' :: p.2), goodLine l := by
    intro l hmem
    simp only [List.mem_cons] at hmem
    rcases hmem with rfl | rfl | rfl | hmem
    · refine goodLine_append (goodLine_cons (by decide) ?_)
        (goodLine_cons (by decide) (tagJoin_good tags htags))
      refine goodLine_joinWith _ (by decide) _ ?_
      intro t ht
      rcases List.mem_map.mp ht with ⟨p, hp, rfl⟩
      exact (hms p hp).1
    · exact goodLine_cons (by decide) (strftimeFull_good ts)
    · exact goodLine_cons (by decide) (natDigits_good ms.length)
    · rcases List.mem_map.mp hmem with ⟨p, hp, rfl⟩
      exact goodLine_cons (by decide) (hms p hp).2
  have hlines : crlfLines (bulk_msg ts ms tags) =
      (('+' :: joinWith ['|'] (ms.map Prod.fst)) ++ ' ' :: tagJoin tags)
        :: ('+' :: strftimeFull ts)
        :: ('*' :: natDigits ms.length)
        :: ms.map (fun p => '+' :: p.2) := by
    unfold bulk_msg
    have h := crlfLines_joinWith
      ([('+' :: joinWith ['|'] (ms.map Prod.fst)) ++ ' ' :: tagJoin tags,
        '+' :: strftimeFull ts,
        '*' :: natDigits ms.length] ++ ms.map (fun p => '+' :: p.2))
      (by simp) (by simpa using hl)
    simpa using h
  refine ⟨hlines, ?_⟩
  rw [hlines]
  simp [List.length_map]

/-- C7 witness: a concrete bulk frame writing metrics `cpu` and `mem`
sharing one timestamp and one tag pair. -/
theorem C7_bulk_msg_frame_witness :
    ([(("cpu".data : Str), ("1".data : Str)), ("mem".data, "2".data)] ≠
      ([] : List (Str × Str))) ∧
    (∀ p ∈ [(("cpu".data : Str), ("1".data : Str)), ("mem".data, "2".data)],
      goodLine p.1 ∧ goodLine p.2) ∧
    (∀ p ∈ [(("host".data : Str), ("A".data : Str))],
      goodLine p.1 ∧ goodLine p.2) ∧
    (crlfLines (bulk_msg (DateTime.mk 2017 1 7 12 3 5 0)
        [("cpu".data, "1".data), ("mem".data, "2".data)]
        [("host".data, "A".data)]) =
      (('+' :: joinWith ['|']
          ([(("cpu".data : Str), ("1".data : Str)), ("mem".data, "2".data)].map
            Prod.fst)) ++
        ' ' :: tagJoin [("host".data, "A".data)])
        :: ('+' :: strftimeFull (DateTime.mk 2017 1 7 12 3 5 0))
        :: ('*' :: natDigits
            ([(("cpu".data : Str), ("1".data : Str)), ("mem".data, "2".data)].length))
        :: [(("cpu".data : Str), ("1".data : Str)), ("mem".data, "2".data)].map
            (fun p => '+' :: p.2) ∧
    (crlfLines (bulk_msg (DateTime.mk 2017 1 7 12 3 5 0)
        [("cpu".data, "1".data), ("mem".data, "2".data)]
        [("host".data, "A".data)])).length =
      [(("cpu".data : Str), ("1".data : Str)), ("mem".data, "2".data)].length + 3) :=
  ⟨by decide, by decide, by decide,
   C7_bulk_msg_frame (DateTime.mk 2017 1 7 12 3 5 0)
     [("cpu".data, "1".data), ("mem".data, "2".data)]
     [("host".data, "A".data)] (by decide) (by decide) (by decide)⟩

/- ---------------------------------------------------------------------
   Claim C6: the metadata (meta:names) completeness check
   (test_query_language.py, test_metadata_query lines 205-230)
   --------------------------------------------------------------------- -/

/-- Embeds `itertools.product(*lists)`: all ways of choosing one element
from each list, rightmost position varying fastest. -/
def productLists : List (List Str) → List (List Str)
  | [] => [[]]
  | l :: ls => l.flatMap (fun x => (productLists ls).map (fun ys => x :: ys))

/-- Python string comparison on our character-list strings. -/
def strLeB (a b : Str) : Bool := decide (a ≤ b)

/-- Python comparison of value tuples (lexicographic on the lists). -/
def strListLeB (a b : List Str) : Bool := decide (a ≤ b)

/-- Python comparison of `(tag, value)` tuples: lexicographic on the
pair. -/
def pairLeB (a b : Str × Str) : Bool :=
  decide (a.1 < b.1) || (decide (a.1 = b.1) && decide (a.2 ≤ b.2))

/-- Embeds `sorted(...)` on `(tag, value)` pairs. -/
def sortPairs (l : List (Str × Str)) : List (Str × Str) := l.mergeSort pairLeB

/-- Embeds `list.sort()` on series strings. -/
def sortStrs (l : List Str) : List Str := l.mergeSort strLeB

/-- Embeds `sorted(...)` on the product's value tuples. -/
def sortCombos (l : List (List Str)) : List (List Str) := l.mergeSort strListLeB

/-- Embeds the canonical series string built for one tag combination:
`"test " + " ".join(["{0}={1}".format(tag, value) for tag, value in
sorted(kv)])`. -/
def canonicalSeries (kv : List (Str × Str)) : Str :=
  "test ".data ++ joinWith [' '] ((sortPairs kv).map fmtTagPair)

/-- Embeds the expected-series list of `test_metadata_query`: the sorted
product of the per-tag value lists, one canonical series string per
combination, sorted at the end. -/
def expectedSeries (tags : List (Str × List Str)) : List Str :=
  sortStrs ((sortCombos (productLists (tags.map Prod.snd))).map
    (fun it => canonicalSeries ((tags.map Prod.fst).zip it)))

/-- Embeds the acceptance check of `test_metadata_query`: sort the
response lines and compare with the expected list element for element
(`actual_series.sort(); if actual_series != expected_series: raise`). -/
def metadataAccept (tags : List (Str × List Str)) (actual : List Str) : Bool :=
  decide (sortStrs actual = expectedSeries tags)

/-- Transitivity of the boolean string order. -/
theorem strLeB_trans : ∀ a b c : Str,
    strLeB a b = true → strLeB b c = true → strLeB a c = true := by
  intro a b c hab hbc
  simp only [strLeB, decide_eq_true_eq] at *
  exact le_trans hab hbc

/-- Totality of the boolean string order. -/
theorem strLeB_total : ∀ a b : Str, (strLeB a b || strLeB b a) = true := by
  intro a b
  simp only [strLeB, Bool.or_eq_true, decide_eq_true_eq]
  exact le_total a b

/-- Transitivity of the boolean tuple order. -/
theorem strListLeB_trans : ∀ a b c : List Str,
    strListLeB a b = true → strListLeB b c = true → strListLeB a c = true := by
  intro a b c hab hbc
  simp only [strListLeB, decide_eq_true_eq] at *
  exact le_trans hab hbc

/-- Totality of the boolean tuple order. -/
theorem strListLeB_total : ∀ a b : List Str, (strListLeB a b || strListLeB b a) = true := by
  intro a b
  simp only [strListLeB, Bool.or_eq_true, decide_eq_true_eq]
  exact le_total a b

/-- Transitivity of the boolean pair order. -/
theorem pairLeB_trans : ∀ a b c : Str × Str,
    pairLeB a b = true → pairLeB b c = true → pairLeB a c = true := by
  intro a b c hab hbc
  simp only [pairLeB, Bool.or_eq_true, Bool.and_eq_true, decide_eq_true_eq] at *
  rcases hab with h1 | ⟨e1, l1⟩
  · rcases hbc with h2 | ⟨e2, l2⟩
    · exact Or.inl (lt_trans h1 h2)
    · exact Or.inl (e2 ▸ h1)
  · rcases hbc with h2 | ⟨e2, l2⟩
    · exact Or.inl (e1 ▸ h2)
    · exact Or.inr ⟨e1.trans e2, le_trans l1 l2⟩

/-- Totality of the boolean pair order. -/
theorem pairLeB_total : ∀ a b : Str × Str, (pairLeB a b || pairLeB b a) = true := by
  intro a b
  simp only [pairLeB, Bool.or_eq_true, Bool.and_eq_true, decide_eq_true_eq]
  rcases lt_trichotomy a.1 b.1 with h | h | h
  · exact Or.inl (Or.inl h)
  · rcases le_total a.2 b.2 with h2 | h2
    · exact Or.inl (Or.inr ⟨h, h2⟩)
    · exact Or.inr (Or.inr ⟨h.symm, h2⟩)
  · exact Or.inr (Or.inl h)

/-- Antisymmetry of the boolean pair order. -/
theorem pairLeB_antisymm : ∀ a b : Str × Str,
    pairLeB a b = true → pairLeB b a = true → a = b := by
  intro a b hab hba
  simp only [pairLeB, Bool.or_eq_true, Bool.and_eq_true, decide_eq_true_eq] at *
  rcases hab with h1 | ⟨e1, l1⟩
  · rcases hba with h2 | ⟨e2, l2⟩
    · exact absurd (lt_trans h1 h2) (lt_irrefl _)
    · exact absurd (e2 ▸ h1) (lt_irrefl _)
  · rcases hba with h2 | ⟨e2, l2⟩
    · exact absurd (e1 ▸ h2) (lt_irrefl _)
    · exact Prod.ext e1 (le_antisymm l1 l2)

/-- Length of the product of choice lists. -/
theorem productLists_length (ls : List (List Str)) :
    (productLists ls).length = (ls.map List.length).prod := by
  induction ls with
  | nil => rfl
  | cons l ls ih =>
    rw [productLists, List.length_flatMap]
    rw [show List.map (List.length ∘ fun x => (productLists ls).map (fun ys => x :: ys)) l
        = List.map (Function.const Str (productLists ls).length) l from
      List.map_congr_left (fun a _ => by simp [Function.const])]
    rw [List.map_const, List.sum_replicate, smul_eq_mul]
    rw [ih, List.map_cons, List.prod_cons]

/-- Members of the product pick one value per list. -/
theorem productLists_mem_length (ls : List (List Str)) (c : List Str)
    (hc : c ∈ productLists ls) : c.length = ls.length := by
  induction ls generalizing c with
  | nil =>
    simp only [productLists, List.mem_cons, List.not_mem_nil, or_false] at hc
    subst hc
    rfl
  | cons l ls ih =>
    rw [productLists, List.mem_flatMap] at hc
    obtain ⟨x, _, hx⟩ := hc
    rcases List.mem_map.mp hx with ⟨ys, hys, rfl⟩
    simp [ih ys hys]

/-- Each chosen value belongs to one of the choice lists. -/
theorem productLists_mem_mem (ls : List (List Str)) (c : List Str)
    (hc : c ∈ productLists ls) : ∀ v ∈ c, ∃ l ∈ ls, v ∈ l := by
  induction ls generalizing c with
  | nil =>
    simp only [productLists, List.mem_cons, List.not_mem_nil, or_false] at hc
    subst hc
    intro v hv
    exact absurd hv (List.not_mem_nil v)
  | cons l ls ih =>
    rw [productLists, List.mem_flatMap] at hc
    obtain ⟨x, hxl, hx⟩ := hc
    rcases List.mem_map.mp hx with ⟨ys, hys, rfl⟩
    intro v hv
    rcases List.mem_cons.mp hv with rfl | hv2
    · exact ⟨l, List.mem_cons_self _ _, hxl⟩
    · rcases ih ys hys v hv2 with ⟨l2, hl2, hvl2⟩
      exact ⟨l2, List.mem_cons_of_mem _ hl2, hvl2⟩

/-- The product of duplicate-free choice lists is duplicate-free. -/
theorem productLists_nodup (ls : List (List Str)) (h : ∀ l ∈ ls, l.Nodup) :
    (productLists ls).Nodup := by
  induction ls with
  | nil => exact List.nodup_singleton _
  | cons l ls ih =>
    rw [productLists, List.nodup_flatMap]
    constructor
    · intro x _
      exact (ih (fun a ha => h a (List.mem_cons_of_mem _ ha))).map
        (fun ys zs hyz => by injection hyz)
    · have hl : l.Nodup := h l (List.mem_cons_self _ _)
      refine hl.imp (fun hxy => ?_)
      intro s hsx hsy
      rcases List.mem_map.mp hsx with ⟨ys, _, rfl⟩
      rcases List.mem_map.mp hsy with ⟨zs, _, heq⟩
      have h1 : _ = _ := heq
      injection h1 with h2 h3
      exact hxy h2.symm

/-- Space-separated concatenation of space-free tokens splits
unambiguously at the first separator. -/
theorem sep_split_unique : ∀ (x y r s : Str), ' ' ∉ x → ' ' ∉ y →
    x ++ ' ' :: r = y ++ ' ' :: s → x = y ∧ r = s := by
  intro x
  induction x with
  | nil =>
    intro y r s _ hy h
    cases y with
    | nil =>
      rw [List.nil_append, List.nil_append] at h
      injection h with _ h2
      exact ⟨rfl, h2⟩
    | cons b y' =>
      rw [List.nil_append, List.cons_append] at h
      injection h with h1 _
      exact absurd (h1 ▸ List.mem_cons_self b y') hy
  | cons a x' ih =>
    intro y r s hx hy h
    cases y with
    | nil =>
      rw [List.cons_append, List.nil_append] at h
      injection h with h1 _
      exact absurd (h1 ▸ List.mem_cons_self a x') hx
    | cons b y' =>
      rw [List.cons_append, List.cons_append] at h
      injection h with h1 h2
      obtain ⟨hxe, hre⟩ := ih y' r s
        (fun hc => hx (List.mem_cons_of_mem _ hc))
        (fun hc => hy (List.mem_cons_of_mem _ hc)) h2
      exact ⟨by rw [h1, hxe], hre⟩

/-- Joining space-free tokens with a space separator is injective for
equal token counts. -/
theorem joinWith_space_inj : ∀ (t1 t2 : List Str),
    (∀ t ∈ t1, ' ' ∉ t) → (∀ t ∈ t2, ' ' ∉ t) → t1.length = t2.length →
    joinWith [' '] t1 = joinWith [' '] t2 → t1 = t2 := by
  intro t1
  induction t1 with
  | nil =>
    intro t2 _ _ hlen _
    cases t2 with
    | nil => rfl
    | cons b t2' => simp at hlen
  | cons a t1' ih =>
    intro t2 h1 h2 hlen hj
    cases t2 with
    | nil => simp at hlen
    | cons b t2' =>
      cases t1' with
      | nil =>
        cases t2' with
        | nil =>
          rw [show joinWith [' '] [a] = a from rfl,
              show joinWith [' '] [b] = b from rfl] at hj
          rw [hj]
        | cons d t2'' => simp at hlen
      | cons c t1'' =>
        cases t2' with
        | nil => simp at hlen
        | cons d t2'' =>
          have e1 : joinWith [' '] (a :: c :: t1'') =
              a ++ ' ' :: joinWith [' '] (c :: t1'') := by
            rw [show joinWith [' '] (a :: c :: t1'') =
                a ++ [' '] ++ joinWith [' '] (c :: t1'') from rfl,
              List.append_assoc]
            rfl
          have e2 : joinWith [' '] (b :: d :: t2'') =
              b ++ ' ' :: joinWith [' '] (d :: t2'') := by
            rw [show joinWith [' '] (b :: d :: t2'') =
                b ++ [' '] ++ joinWith [' '] (d :: t2'') from rfl,
              List.append_assoc]
            rfl
          rw [e1, e2] at hj
          obtain ⟨hab, hrest⟩ := sep_split_unique a b _ _
            (h1 a (List.mem_cons_self _ _)) (h2 b (List.mem_cons_self _ _)) hj
          have htail := ih (d :: t2'')
            (fun t ht => h1 t (List.mem_cons_of_mem _ ht))
            (fun t ht => h2 t (List.mem_cons_of_mem _ ht))
            (by simpa using hlen) hrest
          rw [hab, htail]

/-- A pair list is determined by its key projection and its rendered
tokens. -/
theorem pairs_eq_of_proj : ∀ (l1 l2 : List (Str × Str)),
    l1.map Prod.fst = l2.map Prod.fst → l1.map fmtTagPair = l2.map fmtTagPair →
    l1 = l2 := by
  intro l1
  induction l1 with
  | nil =>
    intro l2 hf _
    cases l2 with
    | nil => rfl
    | cons q l2' => simp at hf
  | cons p l1' ih =>
    intro l2 hf hm
    cases l2 with
    | nil => simp at hf
    | cons q l2' =>
      rw [List.map_cons, List.map_cons] at hf hm
      injection hf with hf1 hf2
      injection hm with hm1 hm2
      unfold fmtTagPair at hm1
      rw [hf1] at hm1
      have hsnd : p.2 = q.2 := by
        have h3 := List.append_cancel_left hm1
        injection h3
      rw [Prod.ext hf1 hsnd, ih l2' hf2 hm2]

/-- The pair order bounds the keys. -/
theorem pairLeB_fst_le {a b : Str × Str} (h : pairLeB a b = true) : a.1 ≤ b.1 := by
  simp only [pairLeB, Bool.or_eq_true, Bool.and_eq_true, decide_eq_true_eq] at h
  rcases h with h | ⟨h, _⟩
  · exact le_of_lt h
  · exact le_of_eq h

/-- Sorting the zipped pairs and projecting to the keys gives the sorted
keys, whatever values were zipped in. -/
theorem sortPairs_fst (keys c : List Str) (hlen : keys.length ≤ c.length) :
    (sortPairs (keys.zip c)).map Prod.fst = sortStrs keys := by
  apply @List.Perm.eq_of_sorted Str (fun a b : Str => a ≤ b) _ _
    (fun a b _ _ h1 h2 => le_antisymm h1 h2)
  · exact (List.sorted_mergeSort pairLeB_trans pairLeB_total (keys.zip c)).map
      Prod.fst (fun a b hab => pairLeB_fst_le hab)
  · exact (List.sorted_mergeSort strLeB_trans strLeB_total keys).imp
      (fun h => by simpa [strLeB] using h)
  · have h1 : ((keys.zip c).mergeSort pairLeB).map Prod.fst |>.Perm keys := by
      have h2 := (List.mergeSort_perm (keys.zip c) pairLeB).map Prod.fst
      rwa [List.map_fst_zip keys c hlen] at h2
    exact h1.trans (List.mergeSort_perm keys strLeB).symm

/-- Zipping duplicate-free keys determines the value list. -/
theorem zip_perm_values_eq : ∀ (keys c1 c2 : List Str), keys.Nodup →
    c1.length = keys.length → c2.length = keys.length →
    (keys.zip c1).Perm (keys.zip c2) → c1 = c2 := by
  intro keys
  induction keys with
  | nil =>
    intro c1 c2 _ h1 h2 _
    rw [List.length_eq_zero.mp h1, List.length_eq_zero.mp h2]
  | cons k ks ih =>
    intro c1 c2 hk h1 h2 hp
    cases c1 with
    | nil => simp at h1
    | cons a as =>
      cases c2 with
      | nil => simp at h2
      | cons b bs =>
        rw [List.zip_cons_cons, List.zip_cons_cons] at hp
        have hmem : (k, a) ∈ (k, b) :: ks.zip bs :=
          hp.mem_iff.mp (List.mem_cons_self _ _)
        rcases List.mem_cons.mp hmem with he | hmem2
        · have hab : a = b := by injection he
          subst hab
          have htail := hp.cons_inv
          rw [ih as bs (List.nodup_cons.mp hk).2
            (by simpa using h1) (by simpa using h2) htail]
        · exact absurd (List.of_mem_zip hmem2).1 (List.nodup_cons.mp hk).1

/-- Canonical series strings are injective on the product combinations
when keys are duplicate-free and keys and values are space-free. -/
theorem canonical_inj_on (tags : List (Str × List Str))
    (hkeys : (tags.map Prod.fst).Nodup)
    (hkeysgood : ∀ k ∈ tags.map Prod.fst, ' ' ∉ k)
    (hvalsgood : ∀ vl ∈ tags.map Prod.snd, ∀ v ∈ vl, ' ' ∉ v) :
    ∀ c1 ∈ productLists (tags.map Prod.snd),
    ∀ c2 ∈ productLists (tags.map Prod.snd),
    canonicalSeries ((tags.map Prod.fst).zip c1) =
      canonicalSeries ((tags.map Prod.fst).zip c2) → c1 = c2 := by
  intro c1 hc1 c2 hc2 heq
  have hlen1 : c1.length = (tags.map Prod.fst).length := by
    rw [productLists_mem_length _ c1 hc1]
    simp
  have hlen2 : c2.length = (tags.map Prod.fst).length := by
    rw [productLists_mem_length _ c2 hc2]
    simp
  have hcood : ∀ c, c ∈ productLists (tags.map Prod.snd) → ∀ v ∈ c, ' ' ∉ v := by
    intro c hc v hv
    rcases productLists_mem_mem _ c hc v hv with ⟨vl, hvl, hvvl⟩
    exact hvalsgood vl hvl v hvvl
  have htok : ∀ c, c.length = (tags.map Prod.fst).length → (∀ v ∈ c, ' ' ∉ v) →
      ∀ t ∈ (sortPairs ((tags.map Prod.fst).zip c)).map fmtTagPair, ' ' ∉ t := by
    intro c hlen hcv t ht
    rcases List.mem_map.mp ht with ⟨p, hp, rfl⟩
    obtain ⟨pk, pv⟩ := p
    have hpz : (pk, pv) ∈ (tags.map Prod.fst).zip c :=
      (List.mergeSort_perm ((tags.map Prod.fst).zip c) pairLeB).mem_iff.mp hp
    obtain ⟨hkm, hvm⟩ := List.of_mem_zip hpz
    intro hsp
    rcases List.mem_append.mp hsp with hsp1 | hsp2
    · exact hkeysgood pk hkm hsp1
    · rcases List.mem_cons.mp hsp2 with he | hsp3
      · exact absurd he (by decide)
      · exact hcv pv hvm hsp3
  have htoklen : ∀ c : List Str, c.length = (tags.map Prod.fst).length →
      ((sortPairs ((tags.map Prod.fst).zip c)).map fmtTagPair).length =
        (tags.map Prod.fst).length := by
    intro c hlen
    rw [List.length_map]
    unfold sortPairs
    rw [(List.mergeSort_perm ((tags.map Prod.fst).zip c) pairLeB).length_eq]
    rw [List.length_zip, hlen, min_self]
  unfold canonicalSeries at heq
  have hJ := List.append_cancel_left heq
  have hT := joinWith_space_inj _ _
    (htok c1 hlen1 (hcood c1 hc1)) (htok c2 hlen2 (hcood c2 hc2))
    (by rw [htoklen c1 hlen1, htoklen c2 hlen2]) hJ
  have hpairs := pairs_eq_of_proj (sortPairs ((tags.map Prod.fst).zip c1))
    (sortPairs ((tags.map Prod.fst).zip c2))
    (by rw [sortPairs_fst _ _ (le_of_eq hlen1.symm),
            sortPairs_fst _ _ (le_of_eq hlen2.symm)]) hT
  have hperm : ((tags.map Prod.fst).zip c1).Perm ((tags.map Prod.fst).zip c2) := by
    have ha : (sortPairs ((tags.map Prod.fst).zip c1)).Perm
        ((tags.map Prod.fst).zip c1) := List.mergeSort_perm _ pairLeB
    have hb : (sortPairs ((tags.map Prod.fst).zip c2)).Perm
        ((tags.map Prod.fst).zip c2) := List.mergeSort_perm _ pairLeB
    exact ha.symm.trans (hpairs ▸ hb)
  exact zip_perm_values_eq _ c1 c2 hkeys hlen1 hlen2 hperm

/-- C6: for a tag mapping with duplicate-free keys, duplicate-free
per-tag value lists and space-free tokens, the expected-series list
contains exactly T = (product of the list sizes) canonical strings
`test <tag>=<value> ...` with tags sorted by key, is itself sorted with
no duplicates; a meta:names response is accepted exactly when, after
sorting, it equals this list element for element; and permuting a tag
set's input order never changes its canonical string. -/
theorem C6_metadata_expected_series (tags : List (Str × List Str))
    (hkeys : (tags.map Prod.fst).Nodup)
    (hkeysgood : ∀ k ∈ tags.map Prod.fst, ' ' ∉ k)
    (hvals : ∀ vl ∈ tags.map Prod.snd, vl.Nodup)
    (hvalsgood : ∀ vl ∈ tags.map Prod.snd, ∀ v ∈ vl, ' ' ∉ v) :
    (expectedSeries tags).length = (tags.map (fun p => p.2.length)).prod ∧
    List.Pairwise (fun a b : Str => a ≤ b) (expectedSeries tags) ∧
    (expectedSeries tags).Nodup ∧
    (∀ actual, metadataAccept tags actual = true ↔
      sortStrs actual = expectedSeries tags) ∧
    (∀ kv1 kv2 : List (Str × Str), kv1.Perm kv2 →
      canonicalSeries kv1 = canonicalSeries kv2) := by
  refine ⟨?_, ?_, ?_, ?_, ?_⟩
  · calc (expectedSeries tags).length
        = ((sortCombos (productLists (tags.map Prod.snd))).map
            (fun it => canonicalSeries ((tags.map Prod.fst).zip it))).length :=
          (List.mergeSort_perm _ strLeB).length_eq
      _ = (sortCombos (productLists (tags.map Prod.snd))).length :=
          List.length_map _ _
      _ = (productLists (tags.map Prod.snd)).length :=
          (List.mergeSort_perm _ strListLeB).length_eq
      _ = ((tags.map Prod.snd).map List.length).prod := productLists_length _
      _ = (tags.map (fun p => p.2.length)).prod := by
          rw [List.map_map]
          rfl
  · exact (List.sorted_mergeSort strLeB_trans strLeB_total _).imp
      (fun h => by simpa [strLeB] using h)
  · have hPn : (productLists (tags.map Prod.snd)).Nodup :=
      productLists_nodup _ hvals
    have hSCn : (sortCombos (productLists (tags.map Prod.snd))).Nodup :=
      hPn.perm (List.mergeSort_perm _ strListLeB).symm
    have hmapn : ((sortCombos (productLists (tags.map Prod.snd))).map
        (fun it => canonicalSeries ((tags.map Prod.fst).zip it))).Nodup := by
      refine List.Nodup.map_on ?_ hSCn
      intro x hx y hy hf
      have hxP : x ∈ productLists (tags.map Prod.snd) :=
        (List.mergeSort_perm _ strListLeB).mem_iff.mp hx
      have hyP : y ∈ productLists (tags.map Prod.snd) :=
        (List.mergeSort_perm _ strListLeB).mem_iff.mp hy
      exact canonical_inj_on tags hkeys hkeysgood hvalsgood x hxP y hyP hf
    exact hmapn.perm (List.mergeSort_perm _ strLeB).symm
  · intro actual
    unfold metadataAccept
    exact decide_eq_true_iff
  · intro kv1 kv2 hperm
    have h : sortPairs kv1 = sortPairs kv2 := by
      refine @List.Perm.eq_of_sorted (Str × Str) (fun a b => pairLeB a b = true) _ _
        (fun a b _ _ hab hba => pairLeB_antisymm a b hab hba)
        (List.sorted_mergeSort pairLeB_trans pairLeB_total kv1)
        (List.sorted_mergeSort pairLeB_trans pairLeB_total kv2) ?_
      exact (List.mergeSort_perm kv1 pairLeB).trans
        (hperm.trans (List.mergeSort_perm kv2 pairLeB).symm)
    unfold canonicalSeries
    rw [h]

/-- C6 witness: the mapping tag1 -> [B, C], tag2 -> [D] yields two
canonical series and the check behaves as stated. -/
theorem C6_metadata_expected_series_witness :
    (([("tag1".data, [("B".data : Str), "C".data]),
       ("tag2".data, [("D".data : Str)])].map Prod.fst).Nodup) ∧
    (∀ k ∈ [(("tag1".data : Str), [("B".data : Str), "C".data]),
       ("tag2".data, [("D".data : Str)])].map Prod.fst, ' ' ∉ k) ∧
    (∀ vl ∈ [(("tag1".data : Str), [("B".data : Str), "C".data]),
       ("tag2".data, [("D".data : Str)])].map Prod.snd, vl.Nodup) ∧
    (∀ vl ∈ [(("tag1".data : Str), [("B".data : Str), "C".data]),
       ("tag2".data, [("D".data : Str)])].map Prod.snd, ∀ v ∈ vl, ' ' ∉ v) ∧
    ((expectedSeries [("tag1".data, [("B".data : Str), "C".data]),
        ("tag2".data, ["D".data])]).length =
      ([(("tag1".data : Str), [("B".data : Str), "C".data]),
        ("tag2".data, ["D".data])].map (fun p => p.2.length)).prod ∧
    List.Pairwise (fun a b : Str => a ≤ b)
      (expectedSeries [("tag1".data, [("B".data : Str), "C".data]),
        ("tag2".data, ["D".data])]) ∧
    (expectedSeries [("tag1".data, [("B".data : Str), "C".data]),
        ("tag2".data, ["D".data])]).Nodup ∧
    (∀ actual, metadataAccept [("tag1".data, [("B".data : Str), "C".data]),
        ("tag2".data, ["D".data])] actual = true ↔
      sortStrs actual = expectedSeries [("tag1".data, [("B".data : Str), "C".data]),
        ("tag2".data, ["D".data])]) ∧
    (∀ kv1 kv2 : List (Str × Str), kv1.Perm kv2 →
      canonicalSeries kv1 = canonicalSeries kv2)) :=
  ⟨by decide, by decide, by decide, by decide,
   C6_metadata_expected_series
     [("tag1".data, [("B".data : Str), "C".data]), ("tag2".data, ["D".data])]
     (by decide) (by decide) (by decide) (by decide)⟩
